import Mathlib

/-!
Verification of the adaptive quiz core of `quiz-from-json`.

The JavaScript sources are shallowly embedded:
* booleans of the per-question answer history become `List Bool`
  (chronological, most-recent-last, exactly as stored);
* JavaScript numbers are modelled with exact rationals `ℚ` where the code
  multiplies and compares scores, and with `ℤ`/`ℕ` for integer counts;
* `Math.random()`-based tie-breaking is modelled by an arbitrary natural
  number `pick` reduced modulo the number of tied candidates, which ranges
  over exactly the indices `Math.floor(Math.random()*len)` can produce;
* the persistence boundary (`localStorage` + `JSON.parse`) is modelled by an
  inductive describing the observable outcomes of a read: the key is absent,
  the stored blob fails to parse, it parses to a truthy non-object primitive
  (kept by `|| {}`, on which property writes are silent no-ops), or it
  parses to a record map.
-/

/-- `history.slice(-n)` in JavaScript: the last `n` entries of the list
(the whole list when it is shorter than `n`). -/
def lastN (n : Nat) (h : List Bool) : List Bool :=
  h.drop (h.length - n)

/-- `src/js/quiz.js` (`selectNextQuestion`): a question is mastered when
`history.length >= 3 && history.slice(-3).every(Boolean)`. -/
def isMastered (h : List Bool) : Bool :=
  decide (3 ≤ h.length) && (lastN 3 h).all id

/-- The numeric value an answer contributes to the weighted recency score:
`isCorrect ? 1 : -1`. -/
def entryVal (b : Bool) : ℚ :=
  if b then 1 else -1

/-- `src/js/quiz.js` (`selectNextQuestion`): the weighted recency score of a
history, `score += (isCorrect ? 1 : -1) * Math.pow(0.9, history.length - 1 - index)`
accumulated over `history.forEach((isCorrect, index) => ...)`. -/
def weightedScore (h : List Bool) : ℚ :=
  (h.enum.map (fun p => entryVal p.2 * (9/10 : ℚ) ^ (h.length - 1 - p.1))).sum

/-- `Math.round` on a finite number: round to the nearest integer, halves
toward positive infinity. -/
def jsRound (q : ℚ) : ℤ :=
  ⌊q + 1/2⌋

/-- Result record of `calculateAccuracy`. -/
structure Accuracy where
  correct : Nat
  total : Nat
  percentage : ℤ
  deriving DecidableEq, Repr

/-- `src/js/stats.js` / `src/js/quiz.js` (`calculateAccuracy`): on an empty
history return `{0,0,0}`; otherwise count the `true` entries and round
`correct/total*100`. -/
def calculateAccuracy (h : List Bool) : Accuracy :=
  if h.length = 0 then ⟨0, 0, 0⟩
  else
    let correct := (h.filter id).length
    let total := h.length
    ⟨correct, total, jsRound ((correct : ℚ) / (total : ℚ) * 100)⟩

/-- The trend value returned by `calculateImprovement`: the `N/A` sentinel,
or a signed percentage delta rendered as improving / declining / stable. -/
inductive Trend where
  | na
  | improving (delta : ℤ)
  | declining (delta : ℤ)
  | stable
  deriving DecidableEq, Repr

/-- `src/js/stats.js` (`calculateImprovement`): requires at least 4 entries,
otherwise returns the `N/A` sentinel; splits the history at
`half = Math.ceil(length / 2)` into `slice(0, half)` and `slice(-half)` and
compares their rounded accuracy percentages. -/
def calculateImprovement (h : List Bool) : Trend :=
  if h.length < 4 then .na
  else
    let half := (h.length + 1) / 2
    let firstHalf := h.take half
    let secondHalf := lastN half h
    let d := (calculateAccuracy secondHalf).percentage -
      (calculateAccuracy firstHalf).percentage
    if 0 < d then .improving d else if d < 0 then .declining d else .stable

/-- The five per-question states of the mastery classifier. -/
inductive MasteryCategory where
  | unattempted
  | mastered
  | critical
  | mostlyCorrect
  | mostlyIncorrect
  deriving DecidableEq, Repr

/-- The per-question branch of `renderMastery` in the quiz page script
(`MASTERED_STREAK = CRITICAL_STREAK = 3`, `MOSTLY_CORRECT_THRESHOLD = 0.6`):
empty history is skipped (unattempted); a full window of 3 most recent
entries all `true` is mastered; otherwise a full window of 3 most recent
entries all `false`, or no correct answer ever, is critical; otherwise the
overall accuracy decides mostly-correct vs mostly-incorrect. -/
def classifyQuestion (h : List Bool) : MasteryCategory :=
  if h.length = 0 then .unattempted
  else if (lastN 3 h).length = 3 ∧ (lastN 3 h).all id then .mastered
  else if ((lastN 3 h).length = 3 ∧ (lastN 3 h).all (fun b => !b)) ∨
      (h.filter id).length = 0 then .critical
  else if (3/5 : ℚ) ≤ ((h.filter id).length : ℚ) / (h.length : ℚ) then .mostlyCorrect
  else .mostlyIncorrect

/-- Aggregate counters accumulated by `renderMastery`. -/
structure Summary where
  total : Nat
  attempted : Nat
  mastered : Nat
  mostlyCorrect : Nat
  mostlyIncorrect : Nat
  critical : Nat
  deriving DecidableEq, Repr

/-- One `allQuestions.forEach` step of `renderMastery`: skip an unattempted
question, otherwise bump `attempted` and exactly one classification bucket. -/
def summaryStep (s : Summary) (h : List Bool) : Summary :=
  if h.length = 0 then s
  else
    let s' := { s with attempted := s.attempted + 1 }
    match classifyQuestion h with
    | .mastered => { s' with mastered := s'.mastered + 1 }
    | .critical => { s' with critical := s'.critical + 1 }
    | .mostlyCorrect => { s' with mostlyCorrect := s'.mostlyCorrect + 1 }
    | _ => { s' with mostlyIncorrect := s'.mostlyIncorrect + 1 }

/-- A question's raw `topic` field: a JSON value that is absent, a string,
or an array of strings. -/
inductive TopicField where
  | absent
  | str (s : String)
  | arr (entries : List String)
  deriving DecidableEq, Repr

/-- The part of a question record the core logic reads: its identity and its
raw topic field. -/
structure Question where
  id : String
  topic : TopicField
  deriving DecidableEq, Repr

/-- The in-memory `userStats` as used by the selector and the mastery
summary: the defaulted accessor `userStats[q.id]?.history || []`. -/
def StatsMap : Type := String → List Bool

/-- The reconciliation clamp of `renderMastery`: when the four buckets do
not add up to `attempted`, force
`mostlyIncorrect = Math.max(0, attempted - mastered - mostlyCorrect - critical)`
(truncated natural subtraction models the `Math.max(0, ...)`). -/
def reconcile (s : Summary) : Summary :=
  if s.mastered + s.mostlyCorrect + s.mostlyIncorrect + s.critical ≠ s.attempted then
    { s with mostlyIncorrect := s.attempted - s.mastered - s.mostlyCorrect - s.critical }
  else s

/-- `renderMastery`: fold the per-question step over `allQuestions`,
starting from zero counters with `total = allQuestions.length`, then apply
the reconciliation clamp. -/
def masterySummary (stats : StatsMap) (qs : List Question) : Summary :=
  reconcile (qs.foldl (fun s q => summaryStep s (stats q.id)) ⟨qs.length, 0, 0, 0, 0, 0⟩)

/-- `selectNextQuestion` step 1: the `Set` of ids of mastered questions,
`new Set(allQuestions.filter(...).map(q => q.id))`; modelled as the
duplicate-free list of those ids (membership and size agree with the set). -/
def masteredIds (stats : StatsMap) (qs : List Question) : List String :=
  ((qs.filter (fun q => isMastered (stats q.id))).map Question.id).dedup

/-- `selectNextQuestion`: `allQuestions.filter(q => !masteredQuestions.has(q.id))`. -/
def availableQuestions (stats : StatsMap) (qs : List Question) : List Question :=
  qs.filter (fun q => !(masteredIds stats qs).contains q.id)

/-- `selectNextQuestion`: repeat-avoidance is applied only when more than one
question is available: `availableQuestions.length > 1 ?
availableQuestions.filter(q => q.id !== lastQuestionId) : availableQuestions`. -/
def candidatePool (stats : StatsMap) (qs : List Question)
    (lastId : Option String) : List Question :=
  let av := availableQuestions stats qs
  if 1 < av.length then av.filter (fun q => some q.id != lastId) else av

/-- One iteration of the `candidatePool.forEach` minimum scan: a strictly
smaller score resets the tied-candidate list, an equal score appends to it.
The accumulator's first component is `worstScore`, with `none` standing for
the initial `Infinity` (every rational score is below it). -/
def scanStep (stats : StatsMap) (acc : Option ℚ × List Question)
    (q : Question) : Option ℚ × List Question :=
  let s := weightedScore (stats q.id)
  match acc.1 with
  | none => (some s, [q])
  | some w =>
    if s < w then (some s, [q])
    else if s = w then (some w, acc.2 ++ [q])
    else acc

/-- `src/js/quiz.js` (`selectNextQuestion`): return `null` when every
question is mastered (the set of mastered ids is as large as the bank and
the bank is non-empty) or when the candidate pool is empty; otherwise scan
the pool for the minimal weighted recency score and return the random
tie-break choice `candidates[Math.floor(Math.random() * candidates.length)]`,
modelled by the arbitrary index `pick % candidates.length`. -/
def selectNextQuestion (stats : StatsMap) (qs : List Question)
    (lastId : Option String) (pick : Nat) : Option Question :=
  if (masteredIds stats qs).length = qs.length ∧ 0 < qs.length then none
  else if (candidatePool stats qs lastId).length = 0 then none
  else
    ((candidatePool stats qs lastId).foldl (scanStep stats) (none, [])).2.get?
      (pick % ((candidatePool stats qs lastId).foldl (scanStep stats) (none, [])).2.length)

/-- The whitespace class matched by `\s` in the separator regex, restricted
to the ASCII whitespace that can occur in topic labels. -/
def isWS (c : Char) : Bool :=
  c = ' ' || c = '\t' || c = '\n' || c = '\r'

/-- Length of the maximal run of whitespace at the front of the character
list: what a greedy `\s*` consumes. -/
def wsRun (cs : List Char) : Nat :=
  (cs.takeWhile isWS).length

/-- Match one `\s*X\s*` alternative of `TOPIC_SEPARATORS` at the current
position: the greedy leading `\s*` backtracks until the literal separator is
found, which happens exactly when the first non-whitespace character is the
separator; the trailing `\s*` then consumes greedily.  Returns the length of
the match. -/
def matchWsSepWs (sep : Char) (cs : List Char) : Option Nat :=
  let k := wsRun cs
  match cs.drop k with
  | c :: rest => if c = sep then some (k + 1 + wsRun rest) else none
  | [] => none

/-- Match one `X\s*` alternative (`;\s*` or `:\s*`) at the current position. -/
def matchSepWs (sep : Char) (cs : List Char) : Option Nat :=
  match cs with
  | c :: rest => if c = sep then some (1 + wsRun rest) else none
  | [] => none

/-- Match the bare `\/` alternative at the current position. -/
def matchSlash (cs : List Char) : Option Nat :=
  match cs with
  | c :: _ => if c = '/' then some 1 else none
  | [] => none

/-- Try the alternatives of
`TOPIC_SEPARATORS = /\s*\|\s*|\s*-\s*|\s*–\s*|;\s*|:\s*|\/|\s*>\s*/`
in regex order at the current position. -/
def matchSepAt (cs : List Char) : Option Nat :=
  (matchWsSepWs '|' cs).orElse fun _ =>
  (matchWsSepWs '-' cs).orElse fun _ =>
  (matchWsSepWs '–' cs).orElse fun _ =>
  (matchSepWs ';' cs).orElse fun _ =>
  (matchSepWs ':' cs).orElse fun _ =>
  (matchSlash cs).orElse fun _ =>
  matchWsSepWs '>' cs

/-- `String.prototype.split(TOPIC_SEPARATORS)`: scan left to right for the
leftmost separator match, cut the piece accumulated so far, and continue
after the match.  `fuel` bounds the recursion by the input length (every
match consumes at least one character). -/
def splitRun : Nat → List Char → List Char → List (List Char) → List (List Char)
  | 0, cs, cur, acc => acc ++ [cur ++ cs]
  | _ + 1, [], cur, acc => acc ++ [cur]
  | fuel + 1, c :: rest, cur, acc =>
    match matchSepAt (c :: rest) with
    | some n => splitRun fuel ((c :: rest).drop n) [] (acc ++ [cur])
    | none => splitRun fuel rest (cur ++ [c]) acc

/-- Split a topic string on `TOPIC_SEPARATORS`. -/
def splitTopics (s : String) : List String :=
  (splitRun s.length s.data [] []).map List.asString

/-- `String.prototype.trim()`: strip whitespace from both ends. -/
def jsTrim (s : String) : String :=
  (((s.data.dropWhile isWS).reverse.dropWhile isWS).reverse).asString

/-- `src/js/stats.js` (`normalizeTopicPaths`): an array topic contributes one
path per string entry whose trimmed split yields at least one non-empty
trimmed segment; a non-blank string topic contributes its own segments; when
nothing was collected the single default path `["General"]` is returned. -/
def normalizeTopicPaths (t : TopicField) : List (List String) :=
  let normalized :=
    match t with
    | .arr entries =>
      entries.foldl (fun acc entry =>
        let trimmed := jsTrim entry
        if trimmed = "" then acc
        else
          let segments := ((splitTopics trimmed).map jsTrim).filter (· ≠ "")
          if segments ≠ [] then acc ++ [segments] else acc) []
    | .str s =>
      if jsTrim s ≠ "" then
        let segments := ((splitTopics s).map jsTrim).filter (· ≠ "")
        if segments ≠ [] then [segments] else []
      else []
    | .absent => []
  if normalized ≠ [] then normalized else [["General"]]

/-- A node of the topic tree: `{ name, children, history }`, children keyed
by segment name in insertion order. -/
inductive TopicNode where
  | mk (name : String) (children : List (String × TopicNode)) (history : List Bool)

/-- The `name` field of a topic node. -/
def TopicNode.name : TopicNode → String
  | .mk n _ _ => n

/-- The `children` map of a topic node. -/
def TopicNode.children : TopicNode → List (String × TopicNode)
  | .mk _ cs _ => cs

/-- The aggregated `history` of a topic node. -/
def TopicNode.history : TopicNode → List Bool
  | .mk _ _ h => h

@[simp] theorem TopicNode.name_mk (n : String) (cs : List (String × TopicNode))
    (h : List Bool) : (TopicNode.mk n cs h).name = n := rfl

@[simp] theorem TopicNode.children_mk (n : String) (cs : List (String × TopicNode))
    (h : List Bool) : (TopicNode.mk n cs h).children = cs := rfl

@[simp] theorem TopicNode.history_mk (n : String) (cs : List (String × TopicNode))
    (h : List Bool) : (TopicNode.mk n cs h).history = h := rfl

/-- `currentNode.children[part]` on the modelled children map. -/
def lookupChild (n : TopicNode) (key : String) : Option TopicNode :=
  ((n.children).find? (fun p => p.1 == key)).map Prod.snd

/-- Store a child under `key`: replace it in place when present, append it
otherwise (JavaScript object property order). -/
def upsertChild (cs : List (String × TopicNode)) (key : String)
    (node : TopicNode) : List (String × TopicNode) :=
  match cs with
  | [] => [(key, node)]
  | (k, v) :: rest =>
    if k == key then (k, node) :: rest else (k, v) :: upsertChild rest key node

/-- The `path.forEach` walk of `buildTopicTree`: starting below `node`,
create missing children along `path`, and push the question's full history
onto every node visited (the starting node itself is not visited). -/
def insertPath (node : TopicNode) (path : List String) (h : List Bool) : TopicNode :=
  match path with
  | [] => node
  | part :: rest =>
    let child := (lookupChild node part).getD (.mk part [] [])
    let child := TopicNode.mk child.name child.children (child.history ++ h)
    let child := insertPath child rest h
    .mk node.name (upsertChild node.children part child) node.history

/-- A record stored under a question id in the persisted stats blob.  Its
`history` field is `some` when it holds an array and `none` when the field
is missing or not an array. -/
structure StoredRecord where
  history : Option (List Bool)
  deriving DecidableEq, Repr

/-- The persisted per-question stats map, keyed by question id. -/
def StoredStatsMap : Type := String → Option StoredRecord

/-- `stats?.history` with the `Array.isArray` guard of `buildTopicTree`:
missing record or non-array history reads as `[]`. -/
def historyOf (userStats : StoredStatsMap) (id : String) : List Bool :=
  match userStats id with
  | some r => r.history.getD []
  | none => []

/-- One `topicPaths.forEach` step of `buildTopicTree`: skip a path whose
`path.join('|||')` key was already seen for this question, otherwise walk it
and record the key. -/
def walkStep (h : List Bool) (acc : TopicNode × List String)
    (path : List String) : TopicNode × List String :=
  if acc.2.contains (String.intercalate "|||" path) then acc
  else (insertPath acc.1 path h, acc.2 ++ [String.intercalate "|||" path])

/-- The body of one `questions.forEach` step of `buildTopicTree`, with the
question's history and normalized topic paths in hand: skip a question with
empty history; otherwise walk each topic path once (the `seenPaths`
deduplication lives in `walkStep`), then push the history onto the root once
for the question. -/
def processWith (root : TopicNode) (paths : List (List String))
    (h : List Bool) : TopicNode :=
  if h.length = 0 then root
  else
    .mk ((paths.foldl (walkStep h) (root, [])).1).name
      ((paths.foldl (walkStep h) (root, [])).1).children
      (((paths.foldl (walkStep h) (root, [])).1).history ++ h)

/-- One `questions.forEach` step of `buildTopicTree`. -/
def processQuestion (userStats : StoredStatsMap) (root : TopicNode)
    (q : Question) : TopicNode :=
  processWith root (normalizeTopicPaths q.topic) (historyOf userStats q.id)

/-- `src/js/stats.js` (`buildTopicTree`): fold the questions over a fresh
`All Topics` root. -/
def buildTopicTree (userStats : StoredStatsMap) (questions : List Question) : TopicNode :=
  questions.foldl (processQuestion userStats) (.mk "All Topics" [] [])

/-- The observable result of reading and `JSON.parse`-ing the persisted
per-question stats: the key was absent (`getItem` returned `null`, which
parses to `null`, a falsy value replaced by `{}` via `|| {}`), the blob
failed to parse (the `catch` resets to `{}`), the blob parsed to a truthy
non-object primitive such as the number `5` or `true` (which `|| {}` keeps:
its properties read as `undefined` and, the script being non-strict,
property assignments to it are silent no-ops), or it parsed to a record
map (falsy parse results other than `null` are likewise replaced by `{}`
and behave as `absent`). -/
inductive StoredBlob where
  | absent
  | corrupt
  | primitive
  | stored (m : StoredStatsMap)

/-- The stats value produced by the `try`/`catch` of `loadStats` before
normalization, seen through property reads: every read on `{}` or on a
primitive yields `undefined`. -/
def parseStats : StoredBlob → StoredStatsMap
  | .absent => fun _ => none
  | .corrupt => fun _ => none
  | .primitive => fun _ => none
  | .stored m => m

/-- `src/js/quiz.js` (`loadStats`), per-question part: parse the blob, then
for every bank question whose record is missing or whose `history` is not an
array, assign `{ history: [] }`.  When the parsed value is a truthy
primitive the assignment is a silent no-op, so no record is ever created
and every read still yields `undefined`. -/
def loadStats (blob : StoredBlob) (bank : List Question) : StoredStatsMap :=
  fun id =>
    match blob with
    | .primitive => none
    | _ =>
      if bank.any (fun q => q.id == id) then
        match parseStats blob id with
        | some r =>
          match r.history with
          | some h => some ⟨some h⟩
          | none => some ⟨some []⟩
        | none => some ⟨some []⟩
      else parseStats blob id

/-- The observable result of reading and parsing the persisted session
stats. -/
inductive SessionBlob where
  | absent
  | corrupt
  | stored (h : List Bool)

/-- The session stats record `{ history: [...] }`. -/
structure SessionStats where
  history : List Bool
  deriving DecidableEq, Repr

/-- `src/js/quiz.js` (`loadStats`), session part:
`JSON.parse(sessionStorage.getItem(...)) || { history: [] }` inside the same
`try`/`catch`. -/
def loadSession : SessionBlob → SessionStats
  | .absent => ⟨[]⟩
  | .corrupt => ⟨[]⟩
  | .stored h => ⟨h⟩

section Sanity

example : isMastered [true, false, true, true, true] = true := by decide

example : isMastered [true, true, false] = false := by decide

example : weightedScore [] = 0 := by decide

example : classifyQuestion [false, false, false] = .critical := by decide

example : classifyQuestion [] = .unattempted := by decide

end Sanity

/-! ## Weighted recency score -/

/-- Appending one answer multiplies every older weight by the decay factor
and adds the new answer at weight `1`: the old entries contribute the same
sum for either appended value. -/
theorem weightedScore_concat (h : List Bool) (b : Bool) :
    weightedScore (h ++ [b]) =
      (h.enum.map (fun p => entryVal p.2 * (9/10 : ℚ) ^ (h.length - p.1))).sum
        + entryVal b := by
  unfold weightedScore
  rw [List.enum_append]
  simp [List.enumFrom, List.length_append]

/-- C4: for every history `h`, the weighted recency score of `h` with `true`
appended is strictly greater than the weighted recency score of `h` with
`false` appended. -/
theorem weightedScore_append_true_gt_false (h : List Bool) :
    weightedScore (h ++ [false]) < weightedScore (h ++ [true]) := by
  rw [weightedScore_concat, weightedScore_concat]
  simp [entryVal]

/-! ## Mastery classifier -/

theorem lastN_length_eq_iff (h : List Bool) : (lastN 3 h).length = 3 ↔ 3 ≤ h.length := by
  simp [lastN]
  omega

theorem classify_eq_mastered_iff (h : List Bool) :
    classifyQuestion h = .mastered ↔ 3 ≤ h.length ∧ ∀ b ∈ lastN 3 h, b = true := by
  unfold classifyQuestion
  split_ifs with h0 hm hc hq
  · simp [List.length_eq_zero] at h0
    subst h0
    simp [lastN]
  · simp only [lastN_length_eq_iff] at hm
    simpa [List.all_eq_true] using hm
  all_goals
    have hnm : ¬(3 ≤ h.length ∧ ∀ b ∈ lastN 3 h, b = true) := by
      rw [← lastN_length_eq_iff]
      simpa [List.all_eq_true] using hm
  all_goals exact ⟨fun hco => absurd hco (by decide), fun hrhs => absurd hrhs hnm⟩

theorem classify_eq_critical_iff (h : List Bool) :
    classifyQuestion h = .critical ↔
      ¬(3 ≤ h.length ∧ ∀ b ∈ lastN 3 h, b = true) ∧ h ≠ [] ∧
        ((3 ≤ h.length ∧ ∀ b ∈ lastN 3 h, b = false) ∨ ∀ b ∈ h, b = false) := by
  have hz : (h.filter id).length = 0 ↔ ∀ b ∈ h, b = false := by
    simp [List.length_eq_zero, List.filter_eq_nil_iff]
  unfold classifyQuestion
  split_ifs with h0 hm hc hq
  · simp only [List.length_eq_zero] at h0
    subst h0
    simp
  · have hmm : 3 ≤ h.length ∧ ∀ b ∈ lastN 3 h, b = true := by
      rw [← lastN_length_eq_iff]
      simpa [List.all_eq_true] using hm
    exact ⟨fun hco => absurd hco (by decide), fun hrhs => absurd hmm hrhs.1⟩
  · have hnm : ¬(3 ≤ h.length ∧ ∀ b ∈ lastN 3 h, b = true) := by
      rw [← lastN_length_eq_iff]
      simpa [List.all_eq_true] using hm
    have hcc : (3 ≤ h.length ∧ ∀ b ∈ lastN 3 h, b = false) ∨ ∀ b ∈ h, b = false := by
      rcases hc with ⟨hl, hall⟩ | hzz
      · exact Or.inl ⟨(lastN_length_eq_iff h).mp hl, by simpa [List.all_eq_true] using hall⟩
      · exact Or.inr (hz.mp hzz)
    have hne : h ≠ [] := by
      simpa [← List.length_eq_zero] using h0
    exact iff_of_true rfl ⟨hnm, hne, hcc⟩
  all_goals
    have hncc : ¬((3 ≤ h.length ∧ ∀ b ∈ lastN 3 h, b = false) ∨ ∀ b ∈ h, b = false) := by
      intro hcon
      apply hc
      rcases hcon with ⟨hl, hall⟩ | hzz
      · exact Or.inl ⟨(lastN_length_eq_iff h).mpr hl, by simpa [List.all_eq_true] using hall⟩
      · exact Or.inr (hz.mpr hzz)
  all_goals exact ⟨fun hco => absurd hco (by decide), fun hrhs => absurd hrhs.2.2 hncc⟩

/-- C5: the classifier marks a history Mastered exactly when it has at least
3 entries whose last 3 are all `true`; Critical exactly when it is not
Mastered, is non-empty, and either the last 3 entries exist and are all
`false` or no entry is `true`; an empty history is neither. -/
theorem classifier_characterization (h : List Bool) :
    (classifyQuestion h = .mastered ↔ 3 ≤ h.length ∧ ∀ b ∈ lastN 3 h, b = true)
    ∧ (classifyQuestion h = .critical ↔
        ¬(3 ≤ h.length ∧ ∀ b ∈ lastN 3 h, b = true) ∧ h ≠ [] ∧
          ((3 ≤ h.length ∧ ∀ b ∈ lastN 3 h, b = false) ∨ ∀ b ∈ h, b = false))
    ∧ (h = [] → classifyQuestion h ≠ .mastered ∧ classifyQuestion h ≠ .critical) :=
  ⟨classify_eq_mastered_iff h, classify_eq_critical_iff h, by
    intro he
    subst he
    exact ⟨by decide, by decide⟩⟩

/-- Witness for C5 at the empty history. -/
theorem classifier_characterization_witness :
    classifyQuestion [] ≠ .mastered ∧ classifyQuestion [] ≠ .critical :=
  (classifier_characterization []).2.2 rfl

/-! ## Mastery summary reconciliation -/

theorem summaryStep_empty (s : Summary) (h : List Bool) (hh : h.length = 0) :
    summaryStep s h = s := by
  simp [summaryStep, hh]

/-- A non-empty history bumps `attempted` and exactly one bucket. -/
theorem summaryStep_sums (s : Summary) (h : List Bool) (hh : ¬h.length = 0) :
    (summaryStep s h).mastered + (summaryStep s h).mostlyCorrect +
        (summaryStep s h).mostlyIncorrect + (summaryStep s h).critical
      = s.mastered + s.mostlyCorrect + s.mostlyIncorrect + s.critical + 1
    ∧ (summaryStep s h).attempted = s.attempted + 1 := by
  simp only [summaryStep, hh, if_false]
  cases classifyQuestion h <;> simp <;> omega

/-- Fold invariant of `renderMastery`: bucket sum and `attempted` both grow
by the number of attempted questions. -/
theorem summary_fold_sums (stats : StatsMap) (qs : List Question) :
    ∀ s : Summary,
      ((qs.foldl (fun s q => summaryStep s (stats q.id)) s).mastered +
          (qs.foldl (fun s q => summaryStep s (stats q.id)) s).mostlyCorrect +
          (qs.foldl (fun s q => summaryStep s (stats q.id)) s).mostlyIncorrect +
          (qs.foldl (fun s q => summaryStep s (stats q.id)) s).critical
        = s.mastered + s.mostlyCorrect + s.mostlyIncorrect + s.critical +
          qs.countP (fun q => !(stats q.id).isEmpty))
      ∧ (qs.foldl (fun s q => summaryStep s (stats q.id)) s).attempted
        = s.attempted + qs.countP (fun q => !(stats q.id).isEmpty) := by
  induction qs with
  | nil => simp
  | cons q rest ih =>
    intro s
    simp only [List.foldl_cons, List.countP_cons]
    by_cases hq : (stats q.id).length = 0
    · have he : (!(stats q.id).isEmpty) = false := by
        simp [List.isEmpty_iff, List.length_eq_zero] at *
        exact hq
      rw [summaryStep_empty s _ hq, he]
      simpa using ih s
    · have he : (!(stats q.id).isEmpty) = true := by
        simp [List.isEmpty_iff, List.length_eq_zero] at *
        exact hq
      obtain ⟨h1, h2⟩ := summaryStep_sums s (stats q.id) hq
      obtain ⟨ih1, ih2⟩ := ih (summaryStep s (stats q.id))
      refine ⟨?_, ?_⟩ <;> simp [he, ih1, ih2, h1, h2] <;> omega

/-- C6: for every question set and stats map, the aggregate mastery summary
satisfies `mastered + mostlyCorrect + mostlyIncorrect + critical = attempted`,
and `attempted` is the number of questions with non-empty history. -/
theorem summary_reconciliation (stats : StatsMap) (qs : List Question) :
    (masterySummary stats qs).mastered + (masterySummary stats qs).mostlyCorrect +
        (masterySummary stats qs).mostlyIncorrect + (masterySummary stats qs).critical
      = (masterySummary stats qs).attempted
    ∧ (masterySummary stats qs).attempted
      = qs.countP (fun q => !(stats q.id).isEmpty) := by
  obtain ⟨h1, h2⟩ := summary_fold_sums stats qs ⟨qs.length, 0, 0, 0, 0, 0⟩
  have hceq :
      (qs.foldl (fun s q => summaryStep s (stats q.id)) ⟨qs.length, 0, 0, 0, 0, 0⟩).mastered +
        (qs.foldl (fun s q => summaryStep s (stats q.id)) ⟨qs.length, 0, 0, 0, 0, 0⟩).mostlyCorrect +
        (qs.foldl (fun s q => summaryStep s (stats q.id)) ⟨qs.length, 0, 0, 0, 0, 0⟩).mostlyIncorrect +
        (qs.foldl (fun s q => summaryStep s (stats q.id)) ⟨qs.length, 0, 0, 0, 0, 0⟩).critical
      = (qs.foldl (fun s q => summaryStep s (stats q.id)) ⟨qs.length, 0, 0, 0, 0, 0⟩).attempted := by
    rw [h1, h2]
    simp
  unfold masterySummary reconcile
  rw [if_neg (not_not.mpr hceq)]
  refine ⟨hceq, ?_⟩
  rw [h2]
  simp

/-! ## Persistence fallback -/

/-- C10, evaluated at the failing input: a stored stats blob such as `"5"`
parses to a truthy primitive, `|| {}` keeps it, and the per-question
normalization assignment is a silent no-op on it, so the bank question
`"q1"` ends up with no stats record at all — `checkAnswer`'s unconditional
`userStats[q.id].history.push(...)` would then throw.  Absent and
unparseable blobs, by contrast, do load as the claimed empty state with a
fresh `{ history: [] }` record per bank question, and the session history
loads empty. -/
theorem load_primitive_no_record :
    loadStats StoredBlob.primitive [⟨"q1", .absent⟩] "q1" = none
    ∧ loadStats StoredBlob.absent [⟨"q1", .absent⟩] "q1" = some ⟨some []⟩
    ∧ loadStats StoredBlob.corrupt [⟨"q1", .absent⟩] "q1" = some ⟨some []⟩
    ∧ loadStats StoredBlob.corrupt [⟨"q1", .absent⟩] "other" = none
    ∧ loadSession SessionBlob.absent = ⟨[]⟩
    ∧ loadSession SessionBlob.corrupt = ⟨[]⟩ :=
  ⟨rfl, rfl, rfl, rfl, rfl, rfl⟩

/-! ## Improvement trend -/

theorem filter_id_length_eq_count (l : List Bool) : (l.filter id).length = l.count true := by
  induction l with
  | nil => rfl
  | cons b rest ih => cases b <;> simp [ih, List.count_cons]

/-- Rounded accuracy percentage of a window of size `w`. -/
def pctOf (l : List Bool) (w : Nat) : ℤ := jsRound (100 * (l.count true : ℚ) / (w : ℚ))

/-- Modelled from the amended claim: `calculateImprovement` takes no window
size; it returns the insufficient-data sentinel exactly when the history has
fewer than 4 entries, and otherwise compares the rounded accuracy of the
last `⌈n/2⌉` entries against the rounded accuracy of the first `⌈n/2⌉`
entries (the two windows overlap in one entry when `n` is odd). -/
def improvementHalvesSpec (h : List Bool) : Trend :=
  if h.length < 4 then .na
  else
    if 0 < pctOf (lastN ((h.length + 1) / 2) h) ((h.length + 1) / 2) -
        pctOf (h.take ((h.length + 1) / 2)) ((h.length + 1) / 2) then
      .improving (pctOf (lastN ((h.length + 1) / 2) h) ((h.length + 1) / 2) -
        pctOf (h.take ((h.length + 1) / 2)) ((h.length + 1) / 2))
    else if pctOf (lastN ((h.length + 1) / 2) h) ((h.length + 1) / 2) -
        pctOf (h.take ((h.length + 1) / 2)) ((h.length + 1) / 2) < 0 then
      .declining (pctOf (lastN ((h.length + 1) / 2) h) ((h.length + 1) / 2) -
        pctOf (h.take ((h.length + 1) / 2)) ((h.length + 1) / 2))
    else .stable

/-- Counterexample to C8: the history `[true, true, true, false]` is shorter
than `2 * 3`, so for window size 3 the claim requires the insufficient-data
sentinel, but `calculateImprovement` (which takes no window-size argument
and requires only 4 entries) returns a declining trend of -50 points. -/
theorem improvement_windowed_cex :
    ([true, true, true, false] : List Bool).length < 2 * 3
    ∧ calculateImprovement [true, true, true, false] = .declining (-50)
    ∧ (Trend.declining (-50)) ≠ .na := by
  refine ⟨by norm_num, ?_, by decide⟩
  norm_num [calculateImprovement, calculateAccuracy, lastN, jsRound]

/-- C8 as amended: `calculateImprovement` agrees everywhere with the
half-versus-half comparison `improvementHalvesSpec`, whose sentinel
condition is `length < 4`. -/
theorem improvement_amended (h : List Bool) :
    calculateImprovement h = improvementHalvesSpec h := by
  unfold calculateImprovement improvementHalvesSpec
  by_cases h4 : h.length < 4
  · simp [h4]
  · have hw : (h.length + 1) / 2 ≠ 0 := by omega
    have htake : (h.take ((h.length + 1) / 2)).length = (h.length + 1) / 2 := by
      simp [List.length_take]
      omega
    have hlast : (lastN ((h.length + 1) / 2) h).length = (h.length + 1) / 2 := by
      simp [lastN]
      omega
    have hpct1 : (calculateAccuracy (lastN ((h.length + 1) / 2) h)).percentage =
        pctOf (lastN ((h.length + 1) / 2) h) ((h.length + 1) / 2) := by
      rw [calculateAccuracy, if_neg (by rw [hlast]; exact hw)]
      simp only [pctOf, filter_id_length_eq_count, hlast]
      congr 1
      ring
    have hpct2 : (calculateAccuracy (h.take ((h.length + 1) / 2))).percentage =
        pctOf (h.take ((h.length + 1) / 2)) ((h.length + 1) / 2) := by
      rw [calculateAccuracy, if_neg (by rw [htake]; exact hw)]
      simp only [pctOf, filter_id_length_eq_count, htake]
      congr 1
      ring
    simp only [if_neg h4, hpct1, hpct2]

/-! ## Topic tree -/

/-- Walking a path only touches nodes below the starting node. -/
theorem insertPath_history (node : TopicNode) (path : List String) (h : List Bool) :
    (insertPath node path h).history = node.history := by
  cases path with
  | nil => rfl
  | cons p rest => rfl

/-- The walk over a question's topic paths never changes the root's own
history. -/
theorem walk_fold_history (h : List Bool) (paths : List (List String)) :
    ∀ acc : TopicNode × List String,
      ((paths.foldl (walkStep h) acc).1).history = acc.1.history := by
  induction paths with
  | nil => intro acc; rfl
  | cons p rest ih =>
    intro acc
    rw [List.foldl_cons, ih]
    unfold walkStep
    split_ifs with hc
    · rfl
    · simp [insertPath_history]

/-- Each processed question appends its (possibly empty) history to the
root's history exactly once. -/
theorem processQuestion_history (us : StoredStatsMap) (root : TopicNode)
    (q : Question) :
    (processQuestion us root q).history = root.history ++ historyOf us q.id := by
  unfold processQuestion processWith
  split_ifs with h0
  · simp [List.length_eq_zero] at h0
    rw [h0]
    simp
  · simp [walk_fold_history]

theorem buildTree_fold_history (us : StoredStatsMap) (qs : List Question) :
    ∀ root : TopicNode,
      (qs.foldl (processQuestion us) root).history
        = root.history ++ (qs.map (fun q => historyOf us q.id)).flatten := by
  induction qs with
  | nil => intro root; simp
  | cons q rest ih =>
    intro root
    rw [List.foldl_cons, ih, processQuestion_history]
    simp

/-- The root's aggregated history is the concatenation of every question's
history, one copy per question, however many topic paths each declares. -/
theorem root_history_once (us : StoredStatsMap) (qs : List Question) :
    (buildTopicTree us qs).history = (qs.map (fun q => historyOf us q.id)).flatten := by
  rw [buildTopicTree, buildTree_fold_history]
  rfl

/-- C7: `"Algebra - Linear Equations"` normalizes to
`["Algebra", "Linear Equations"]`; a question so tagged with non-empty
history contributes its full history to the root, to `Algebra`, and to
`Algebra → Linear Equations`; an absent or blank topic yields the single
path `["General"]`; a question with empty history contributes nothing. -/
theorem topic_normalization_contribution :
    normalizeTopicPaths (.str "Algebra - Linear Equations")
      = [["Algebra", "Linear Equations"]]
    ∧ (∀ (qid : String) (h : List Bool), h ≠ [] →
        (buildTopicTree (fun i => if i = qid then some ⟨some h⟩ else none)
            [⟨qid, .str "Algebra - Linear Equations"⟩]).history = h
        ∧ (lookupChild (buildTopicTree (fun i => if i = qid then some ⟨some h⟩ else none)
            [⟨qid, .str "Algebra - Linear Equations"⟩]) "Algebra").map TopicNode.history
          = some h
        ∧ ((lookupChild (buildTopicTree (fun i => if i = qid then some ⟨some h⟩ else none)
            [⟨qid, .str "Algebra - Linear Equations"⟩]) "Algebra").bind
            (fun n => (lookupChild n "Linear Equations").map TopicNode.history)) = some h)
    ∧ normalizeTopicPaths .absent = [["General"]]
    ∧ normalizeTopicPaths (.str "") = [["General"]]
    ∧ (∀ (us : StoredStatsMap) (root : TopicNode) (q : Question),
        historyOf us q.id = [] → processQuestion us root q = root) := by
  refine ⟨by decide, ?_, by decide, by decide, ?_⟩
  · intro qid h hne
    have hx : historyOf (fun i => if i = qid then some ⟨some h⟩ else none) qid = h := by
      simp [historyOf]
    have hp : normalizeTopicPaths (.str "Algebra - Linear Equations")
        = [["Algebra", "Linear Equations"]] := by decide
    have hl : ¬h.length = 0 := by
      simpa [List.length_eq_zero] using hne
    simp only [buildTopicTree, List.foldl_cons, List.foldl_nil, processQuestion, hx, hp]
    unfold processWith
    rw [if_neg hl]
    simp [walkStep, insertPath, lookupChild, upsertChild]
  · intro us root q hemp
    simp [processQuestion, processWith, hemp]

/-- Witness for C7 at the one-entry history `[true]`. -/
theorem topic_normalization_contribution_witness :
    (buildTopicTree (fun i => if i = "q1" then some ⟨some [true]⟩ else none)
      [⟨"q1", .str "Algebra - Linear Equations"⟩]).history = [true] :=
  (topic_normalization_contribution.2.1 "q1" [true] (by decide)).1

/-- C9: the root receives every question's history exactly once, however
many topic paths the question declares, while a non-root node on a shared
prefix of two declared paths (`A` below, from `["A - X", "A - Y"]`)
receives the history once per path that visits it. -/
theorem root_once_shared_prefix_per_path :
    (∀ (us : StoredStatsMap) (qs : List Question),
      (buildTopicTree us qs).history = (qs.map (fun q => historyOf us q.id)).flatten)
    ∧ (∀ h : List Bool, h ≠ [] →
        (lookupChild (buildTopicTree (fun i => if i = "q1" then some ⟨some h⟩ else none)
          [⟨"q1", .arr ["A - X", "A - Y"]⟩]) "A").map TopicNode.history = some (h ++ h)
        ∧ (buildTopicTree (fun i => if i = "q1" then some ⟨some h⟩ else none)
          [⟨"q1", .arr ["A - X", "A - Y"]⟩]).history = h) := by
  refine ⟨root_history_once, ?_⟩
  intro h hne
  have hx : historyOf (fun i => if i = "q1" then some ⟨some h⟩ else none) "q1" = h := by
    simp [historyOf]
  have hp : normalizeTopicPaths (.arr ["A - X", "A - Y"]) = [["A", "X"], ["A", "Y"]] := by
    decide
  have hl : ¬h.length = 0 := by
    simpa [List.length_eq_zero] using hne
  have hc2 : ([String.intercalate "|||" ["A", "X"]]).contains
      (String.intercalate "|||" ["A", "Y"]) = false := by decide
  have hk : ¬(String.intercalate "|||" ["A", "Y"] = String.intercalate "|||" ["A", "X"]) := by
    decide
  constructor
  · simp only [buildTopicTree, List.foldl_cons, List.foldl_nil, processQuestion, hx, hp]
    unfold processWith
    rw [if_neg hl]
    simp [walkStep, insertPath, lookupChild, upsertChild, hc2, hk]
  · rw [root_history_once]
    simp [hx]

/-- Witness for C9 at the one-entry history `[true]`: the shared prefix node
holds two copies. -/
theorem root_once_shared_prefix_per_path_witness :
    (lookupChild (buildTopicTree (fun i => if i = "q1" then some ⟨some [true]⟩ else none)
      [⟨"q1", .arr ["A - X", "A - Y"]⟩]) "A").map TopicNode.history = some [true, true] :=
  (root_once_shared_prefix_per_path.2 [true] (by decide)).1

/-! ## Question selector -/

/-- Invariant of the `candidatePool.forEach` minimum scan, for an
accumulator already holding a non-empty tied list at score `w`: the final
worst score is the minimum of `w` and the scores still to come, the tied
list stays non-empty, and every collected candidate attains the minimum and
came from the accumulator or the remaining list. -/
theorem scan_min (stats : StatsMap) (l : List Question) :
    ∀ (w : ℚ) (cs : List Question),
      cs ≠ [] → (∀ c ∈ cs, weightedScore (stats c.id) = w) →
      ∃ m, (l.foldl (scanStep stats) (some w, cs)).1 = some m
        ∧ m ≤ w
        ∧ (∀ q ∈ l, m ≤ weightedScore (stats q.id))
        ∧ (l.foldl (scanStep stats) (some w, cs)).2 ≠ []
        ∧ (∀ c ∈ (l.foldl (scanStep stats) (some w, cs)).2,
            weightedScore (stats c.id) = m ∧ (c ∈ cs ∨ c ∈ l)) := by
  induction l with
  | nil =>
    intro w cs hne hall
    exact ⟨w, rfl, le_refl w, by simp, hne, fun c hc => ⟨hall c hc, Or.inl hc⟩⟩
  | cons q rest ih =>
    intro w cs hne hall
    rw [List.foldl_cons]
    rcases lt_trichotomy (weightedScore (stats q.id)) w with hlt | heq | hgt
    · have hstep : scanStep stats (some w, cs) q = (some (weightedScore (stats q.id)), [q]) := by
        simp [scanStep, hlt]
      rw [hstep]
      obtain ⟨m, h1, h2, h3, h4, h5⟩ := ih (weightedScore (stats q.id)) [q] (by simp)
        (by simp)
      refine ⟨m, h1, h2.trans hlt.le, ?_, h4, ?_⟩
      · intro p hp
        rcases List.mem_cons.mp hp with rfl | hp
        · exact h2
        · exact h3 p hp
      · intro c hc
        obtain ⟨hs, hm⟩ := h5 c hc
        refine ⟨hs, Or.inr ?_⟩
        rcases hm with hm | hm
        · simp at hm
          subst hm
          exact List.mem_cons_self _ _
        · exact List.mem_cons_of_mem _ hm
    · have hstep : scanStep stats (some w, cs) q = (some w, cs ++ [q]) := by
        simp [scanStep, heq, lt_irrefl]
      rw [hstep]
      obtain ⟨m, h1, h2, h3, h4, h5⟩ := ih w (cs ++ [q]) (by simp)
        (by
          intro c hc
          rcases List.mem_append.mp hc with hc | hc
          · exact hall c hc
          · simp at hc
            subst hc
            exact heq)
      refine ⟨m, h1, h2, ?_, h4, ?_⟩
      · intro p hp
        rcases List.mem_cons.mp hp with rfl | hp
        · rw [heq]
          exact h2
        · exact h3 p hp
      · intro c hc
        obtain ⟨hs, hm⟩ := h5 c hc
        refine ⟨hs, ?_⟩
        rcases hm with hm | hm
        · rcases List.mem_append.mp hm with hm | hm
          · exact Or.inl hm
          · simp at hm
            subst hm
            exact Or.inr (List.mem_cons_self _ _)
        · exact Or.inr (List.mem_cons_of_mem _ hm)
    · have hstep : scanStep stats (some w, cs) q = (some w, cs) := by
        simp [scanStep, not_lt.mpr hgt.le, ne_of_gt hgt]
      rw [hstep]
      obtain ⟨m, h1, h2, h3, h4, h5⟩ := ih w cs hne hall
      refine ⟨m, h1, h2, ?_, h4, ?_⟩
      · intro p hp
        rcases List.mem_cons.mp hp with rfl | hp
        · exact h2.trans hgt.le
        · exact h3 p hp
      · intro c hc
        obtain ⟨hs, hm⟩ := h5 c hc
        exact ⟨hs, hm.imp id (List.mem_cons_of_mem _)⟩

/-- The scan over a non-empty pool yields a non-empty candidate list whose
members all lie in the pool and attain the minimal weighted score. -/
theorem scan_pool (stats : StatsMap) (pool : List Question) (hne : pool ≠ []) :
    (pool.foldl (scanStep stats) (none, [])).2 ≠ []
    ∧ ∀ c ∈ (pool.foldl (scanStep stats) (none, [])).2,
        c ∈ pool ∧ ∀ p ∈ pool, weightedScore (stats c.id) ≤ weightedScore (stats p.id) := by
  cases pool with
  | nil => exact absurd rfl hne
  | cons p0 rest =>
    rw [List.foldl_cons]
    have hstep : scanStep stats (none, []) p0 = (some (weightedScore (stats p0.id)), [p0]) := by
      simp [scanStep]
    rw [hstep]
    obtain ⟨m, h1, h2, h3, h4, h5⟩ := scan_min stats rest (weightedScore (stats p0.id)) [p0]
      (by simp) (by simp)
    refine ⟨h4, ?_⟩
    intro c hc
    obtain ⟨hs, hm⟩ := h5 c hc
    constructor
    · rcases hm with hm | hm
      · simp at hm
        subst hm
        exact List.mem_cons_self _ _
      · exact List.mem_cons_of_mem _ hm
    · intro p hp
      rw [hs]
      rcases List.mem_cons.mp hp with rfl | hp
      · exact h2
      · exact h3 p hp

/-- Any returned question is a minimal-score member of the candidate pool. -/
theorem select_mem_pool {stats : StatsMap} {qs : List Question} {lastId : Option String}
    {pick : Nat} {q : Question}
    (hsel : selectNextQuestion stats qs lastId pick = some q) :
    q ∈ candidatePool stats qs lastId
    ∧ ∀ p ∈ candidatePool stats qs lastId,
        weightedScore (stats q.id) ≤ weightedScore (stats p.id) := by
  unfold selectNextQuestion at hsel
  split_ifs at hsel with h1 h2
  have hpne : candidatePool stats qs lastId ≠ [] := by
    intro hc
    exact h2 (by rw [hc]; rfl)
  obtain ⟨hne2, hmin⟩ := scan_pool stats _ hpne
  exact hmin q (List.get?_mem hsel)

/-- If the mastered id set is as large as the bank, every question is
mastered (the set contains no id from outside the bank). -/
theorem all_mastered_of_len (stats : StatsMap) (qs : List Question)
    (hlen : (masteredIds stats qs).length = qs.length) :
    ∀ q ∈ qs, isMastered (stats q.id) = true := by
  have h1 : (masteredIds stats qs).length ≤
      ((qs.filter (fun q => isMastered (stats q.id))).map Question.id).length :=
    (List.dedup_sublist _).length_le
  rw [List.length_map] at h1
  have h2 : (qs.filter (fun q => isMastered (stats q.id))).length ≤ qs.length :=
    List.length_filter_le _ _
  have h3 : (qs.filter (fun q => isMastered (stats q.id))).length = qs.length := by omega
  exact List.filter_length_eq_length.mp h3

theorem available_nil_of_all_mastered (stats : StatsMap) (qs : List Question)
    (hall : ∀ q ∈ qs, isMastered (stats q.id) = true) :
    availableQuestions stats qs = [] := by
  rw [availableQuestions, List.filter_eq_nil_iff]
  intro q hq
  have hmem : q.id ∈ masteredIds stats qs := by
    rw [masteredIds, List.mem_dedup]
    exact List.mem_map.mpr ⟨q, List.mem_filter.mpr ⟨hq, hall q hq⟩, rfl⟩
  simp [hmem]

/-- With duplicate-free ids, an unmastered question's id is not in the
mastered set. -/
theorem not_mem_masteredIds (stats : StatsMap) (qs : List Question)
    (hnd : (qs.map Question.id).Nodup) (q0 : Question) (hq0 : q0 ∈ qs)
    (hq0m : ¬isMastered (stats q0.id) = true) :
    q0.id ∉ masteredIds stats qs := by
  rw [masteredIds, List.mem_dedup]
  intro hmem
  obtain ⟨q2, hq2f, hq2id⟩ := List.mem_map.mp hmem
  obtain ⟨hq2qs, hq2m⟩ := List.mem_filter.mp hq2f
  have heq : q2 = q0 := List.inj_on_of_nodup_map hnd hq2qs hq0 hq2id
  subst heq
  exact hq0m hq2m

theorem mem_available (stats : StatsMap) (qs : List Question)
    (hnd : (qs.map Question.id).Nodup) (q0 : Question) (hq0 : q0 ∈ qs)
    (hq0m : ¬isMastered (stats q0.id) = true) :
    q0 ∈ availableQuestions stats qs := by
  rw [availableQuestions, List.mem_filter]
  refine ⟨hq0, ?_⟩
  have := not_mem_masteredIds stats qs hnd q0 hq0 hq0m
  simpa using this

theorem masteredIds_len_of_all (stats : StatsMap) (qs : List Question)
    (hnd : (qs.map Question.id).Nodup)
    (hall : ∀ q ∈ qs, isMastered (stats q.id) = true) :
    (masteredIds stats qs).length = qs.length := by
  rw [masteredIds, List.filter_eq_self.mpr hall, List.dedup_eq_self.mpr hnd,
    List.length_map]

/-- With duplicate-free ids and at least one unmastered question, the
candidate pool is never empty: repeat-avoidance removes at most the one
question matching `lastQuestionId`, and it is only applied when more than
one question is available. -/
theorem pool_nonempty (stats : StatsMap) (qs : List Question) (lastId : Option String)
    (hnd : (qs.map Question.id).Nodup) (q0 : Question) (hq0 : q0 ∈ qs)
    (hq0m : ¬isMastered (stats q0.id) = true) :
    candidatePool stats qs lastId ≠ [] := by
  have hq0av : q0 ∈ availableQuestions stats qs :=
    mem_available stats qs hnd q0 hq0 hq0m
  rw [candidatePool]
  split_ifs with hgt
  · intro hnil
    rw [List.filter_eq_nil_iff] at hnil
    have hall : ∀ a ∈ availableQuestions stats qs, some a.id = lastId := by
      intro a ha
      have := hnil a ha
      simpa using this
    have hsub : List.Sublist (availableQuestions stats qs) qs := List.filter_sublist _
    have hndav : ((availableQuestions stats qs).map Question.id).Nodup :=
      (hsub.map _).nodup hnd
    rcases hav : availableQuestions stats qs with _ | ⟨a, _ | ⟨b, t⟩⟩
    · rw [hav] at hgt
      simp at hgt
    · rw [hav] at hgt
      simp at hgt
    · have ha := hall a (by rw [hav]; exact List.mem_cons_self _ _)
      have hb := hall b (by rw [hav]; simp)
      have hid : a.id = b.id := by
        rw [← hb] at ha
        exact Option.some_injective _ ha
      rw [hav] at hndav
      simp at hndav
      exact hndav.1.1 hid
  · intro hnil
    rw [hnil] at hq0av
    exact List.not_mem_nil _ hq0av

/-- C1: for a non-empty bank with duplicate-free ids, `selectNextQuestion`
returns the Complete signal (`none`) if and only if every question in the
bank is mastered. -/
theorem complete_iff_all_mastered (stats : StatsMap) (qs : List Question)
    (lastId : Option String) (pick : Nat) (hne : qs ≠ [])
    (hnd : (qs.map Question.id).Nodup) :
    selectNextQuestion stats qs lastId pick = none ↔
      ∀ q ∈ qs, isMastered (stats q.id) = true := by
  constructor
  · intro hsel
    by_contra hnall
    push_neg at hnall
    obtain ⟨q0, hq0, hq0m⟩ := hnall
    have hpne := pool_nonempty stats qs lastId hnd q0 hq0 hq0m
    unfold selectNextQuestion at hsel
    split_ifs at hsel with h1 h2
    · exact hq0m (all_mastered_of_len stats qs h1.1 q0 hq0)
    · exact hpne (List.length_eq_zero.mp h2)
    · obtain ⟨hsne, _⟩ := scan_pool stats _ hpne
      have hlen : 0 <
          ((candidatePool stats qs lastId).foldl (scanStep stats) (none, [])).2.length :=
        List.length_pos.mpr hsne
      have hlt := Nat.mod_lt pick hlen
      rw [List.get?_eq_none] at hsel
      omega
  · intro hall
    unfold selectNextQuestion
    rw [if_pos ⟨masteredIds_len_of_all stats qs hnd hall, List.length_pos.mpr hne⟩]

/-- Witness for C1: a single fully-mastered question yields Complete. -/
theorem complete_iff_all_mastered_witness :
    selectNextQuestion (fun _ => [true, true, true]) [⟨"a", .absent⟩] none 0 = none :=
  (complete_iff_all_mastered (fun _ => [true, true, true]) [⟨"a", .absent⟩] none 0
    (by decide) (by decide)).mpr (by decide)

/-- C2: when more than one question is available after mastery exclusion,
the returned question never has the previously served id; when exactly one
question is available, repeat-avoidance is skipped and that question is
returned even when it carries the previously served id. -/
theorem repeat_avoidance (stats : StatsMap) (qs : List Question) (pick : Nat) :
    (∀ (lastId : Option String) (q : Question),
        1 < (availableQuestions stats qs).length →
        selectNextQuestion stats qs lastId pick = some q →
        some q.id ≠ lastId)
    ∧ (∀ q : Question, availableQuestions stats qs = [q] →
        selectNextQuestion stats qs (some q.id) pick = some q) := by
  constructor
  · intro lastId q hgt hsel
    obtain ⟨hmem, _⟩ := select_mem_pool hsel
    rw [candidatePool, if_pos hgt] at hmem
    have := (List.mem_filter.mp hmem).2
    simpa using this
  · intro q hav
    have h1 : ¬((masteredIds stats qs).length = qs.length ∧ 0 < qs.length) := by
      rintro ⟨hlen, hpos⟩
      have hall := all_mastered_of_len stats qs hlen
      have hnil := available_nil_of_all_mastered stats qs hall
      rw [hav] at hnil
      simp at hnil
    have hpool : candidatePool stats qs (some q.id) = [q] := by
      rw [candidatePool, hav]
      simp
    unfold selectNextQuestion
    rw [if_neg h1, hpool]
    simp [scanStep, Nat.mod_one]

/-- Witness for C2: with two unmastered questions the previous id "a" is
avoided, and with a single available question carrying the previous id "b"
that question is returned anyway. -/
theorem repeat_avoidance_witness :
    (some (Question.id ⟨"b", .absent⟩) ≠ some "a")
    ∧ selectNextQuestion (fun i => if i = "a" then [true, true, true] else [])
        [⟨"a", .absent⟩, ⟨"b", .absent⟩] (some (Question.id ⟨"b", .absent⟩)) 0
        = some ⟨"b", .absent⟩ :=
  ⟨(repeat_avoidance (fun _ => []) [⟨"a", .absent⟩, ⟨"b", .absent⟩] 0).1
      (some "a") ⟨"b", .absent⟩ (by decide) (by decide),
    (repeat_avoidance (fun i => if i = "a" then [true, true, true] else [])
      [⟨"a", .absent⟩, ⟨"b", .absent⟩] 0).2 ⟨"b", .absent⟩ (by decide)⟩

/-- C3: whatever question `selectNextQuestion` returns is a member of the
candidate pool whose weighted recency score is minimal over the pool. -/
theorem selection_minimizes_score (stats : StatsMap) (qs : List Question)
    (lastId : Option String) (pick : Nat) (q : Question)
    (hsel : selectNextQuestion stats qs lastId pick = some q) :
    q ∈ candidatePool stats qs lastId
    ∧ ∀ p ∈ candidatePool stats qs lastId,
        weightedScore (stats q.id) ≤ weightedScore (stats p.id) :=
  select_mem_pool hsel

/-- Witness for C3 on a one-question bank with empty history. -/
theorem selection_minimizes_score_witness :
    (⟨"a", .absent⟩ : Question) ∈ candidatePool (fun _ => []) [⟨"a", .absent⟩] none
    ∧ ∀ p ∈ candidatePool (fun _ => []) [⟨"a", .absent⟩] none,
        weightedScore ((fun _ => []) (Question.id ⟨"a", .absent⟩))
          ≤ weightedScore ((fun _ => []) (Question.id p)) :=
  selection_minimizes_score (fun _ => []) [⟨"a", .absent⟩] none 0 ⟨"a", .absent⟩ (by decide)
